import Mathlib

/-!
Verification development for the Umbral threshold proxy re-encryption core
(`capsule.rs`, `capsule_frag.rs`, `pre.rs`, `dem.rs`, `curve.rs`,
`random_oracles.rs`, `keys.rs`).

Shallow embedding conventions:

* The secp256k1 scalar field is `ZMod q` for an abstract modulus `q` (the
  claims hold for the curve order; witnesses instantiate a small prime).
* The curve group is an abstract `G` with `AddCommGroup G` and
  `Module (ZMod q) G`; the point-times-scalar products of the source become
  `•`.  The generator `g` and the parameter point `u` live in the ambient
  context `Ctx` together with the external primitives the core uses through
  its fixed capability set (hashes, byte encodings, ECDSA, AEAD, HKDF).
* Byte strings are `List ℕ`.
* Randomness sampled inside a source function (`random_nonzero_scalar`,
  AEAD nonces) becomes an explicit argument of the embedded function.
* A Rust `panic!`/`assert!`/`unwrap` on `None` is the `panicked` value of
  `PanicOr`; fallible functions that really return `Option` keep `Option`.
-/

namespace Umbral

/-- Byte strings, as lists of naturals. -/
abbrev Bytes := List ℕ

/-- Result of a computation that can panic (Rust `assert!` / `unwrap`). -/
inductive PanicOr (α : Type) where
  | panicked : PanicOr α
  | ok : α → PanicOr α
deriving DecidableEq

/-- Sequence a possibly-panicking computation. -/
def PanicOr.bind {α β : Type} (x : PanicOr α) (f : α → PanicOr β) : PanicOr β :=
  match x with
  | PanicOr.panicked => PanicOr.panicked
  | PanicOr.ok a => f a

/-- An `unwrap` on an `Option`: panic on `None`, continue on `Some`. -/
def optPanic {α β : Type} (o : Option α) (f : α → PanicOr β) : PanicOr β :=
  match o with
  | none => PanicOr.panicked
  | some a => f a

/-- Items fed to the SHA3-256 scalar hash: compressed points, scalars and raw
byte strings, in the order the source chains them.  The hash itself is an
abstract function in `Ctx`, so two hash computations agree exactly when their
chained item lists agree. -/
inductive HashItem (q : ℕ) (G : Type) where
  | pt : G → HashItem q G
  | sc : ZMod q → HashItem q G
  | bs : Bytes → HashItem q G

/-- ASCII bytes of the scalar-hash domain tag `hash_to_curvebn`
(`random_oracles.rs` line 93; the spec fixes the same prefix for
`ScalarDigest` from the missing `hashing.rs`). -/
def hashToCurvebnTag : Bytes :=
  [104, 97, 115, 104, 95, 116, 111, 95, 99, 117, 114, 118, 101, 98, 110]

/-- ASCII bytes of the domain-separation label `NON_INTERACTIVE`
(constants.rs is absent from the sources; the spec gives the literal). -/
def nonInteractiveTag : Bytes :=
  [78, 79, 78, 95, 73, 78, 84, 69, 82, 65, 67, 84, 73, 86, 69]

/-- ASCII bytes of the domain-separation label `X_COORDINATE`
(constants.rs is absent from the sources; the spec gives the literal). -/
def xCoordinateTag : Bytes :=
  [88, 95, 67, 79, 79, 82, 68, 73, 78, 65, 84, 69]

/-- Ambient context: the curve generator `g`, the Umbral parameter point `u`,
and the external primitives the core uses (spec section 6): the SHA3 scalar
hash, byte encodings of points and scalars, ECDSA sign/verify over a prehash,
the ChaCha20-Poly1305 AEAD, the HKDF-BLAKE2b key derivation of the DEM and the
decoders used by `from_bytes`.  `Sg` is the type of ECDSA signatures. -/
structure Ctx (q : ℕ) (G : Type) (Sg : Type) where
  H : List (HashItem q G) → ZMod q
  g : G
  u : G
  pointBytes : G → Bytes
  scalarBytes : ZMod q → Bytes
  hashSeed : G → Bytes
  signMsg : ZMod q → Bytes → Sg
  verifySig : G → Bytes → Sg → Bool
  aeadEnc : Bytes → Bytes → Bytes → Bytes → Bytes
  aeadDec : Bytes → Bytes → Bytes → Bytes → Option Bytes
  demKdf : Bytes → Bytes
  decodePoint : Bytes → Option G
  decodeScalar : Bytes → Option (ZMod q)

/-- Capsule from `capsule.rs`: `(E, V, s)`.  The `params` field of the source
struct carries only the process-wide constants modelled by `Ctx`. -/
structure Capsule (q : ℕ) (G : Type) where
  point_e : G
  point_v : G
  signature : ZMod q
deriving DecidableEq

/-- KFrag (re-encryption key fragment).  `key_frag.rs` is absent from the
sources; the fields are modelled from the spec (section 4.3), restricted to
the fields the in-tree code (`capsule_frag.rs`, `capsule.rs`) reads:
`id`, `key`, `precursor`, the commitment `key • u` and the Bob-facing
signature. -/
structure KeyFrag (q : ℕ) (G : Type) (Sg : Type) where
  id : ZMod q
  key : ZMod q
  precursor : G
  commitment : G
  signature_for_bob : Sg
deriving DecidableEq

/-- CFrag correctness proof from `capsule_frag.rs`. -/
structure CapsuleFragProof (q : ℕ) (G : Type) (Sg : Type) where
  point_e2 : G
  point_v2 : G
  kfrag_commitment : G
  kfrag_pok : G
  signature : ZMod q
  kfrag_signature : Sg
  metadata : ZMod q
deriving DecidableEq

/-- Capsule fragment from `capsule_frag.rs`. -/
structure CapsuleFrag (q : ℕ) (G : Type) (Sg : Type) where
  point_e1 : G
  point_v1 : G
  kfrag_id : ZMod q
  precursor : G
  proof : CapsuleFragProof q G Sg
deriving DecidableEq

/-- PreparedCapsule from `capsule.rs`: a capsule with the three correctness
keys. -/
structure PreparedCapsule (q : ℕ) (G : Type) where
  capsule : Capsule q G
  delegating_key : G
  receiving_key : G
  verifying_key : G

/-- Allocating DEM ciphertext from `dem.rs`: the nonce and `ct || tag`. -/
structure Ciphertext where
  nonce : Bytes
  data : Bytes
deriving DecidableEq

section Ops

variable {q : ℕ} {G : Type} {Sg : Type}
variable [AddCommGroup G] [Module (ZMod q) G] [DecidableEq G]

/-- ScalarDigest state (`hashing.rs` is absent from the sources).  Modelled
from the spec: the digest always starts with the `hash_to_curvebn` prefix and
then absorbs the chained items in order. -/
def ScalarDigest.new : List (HashItem q G) := [HashItem.bs hashToCurvebnTag]

/-- Absorb one compressed point (`chain_point`). -/
def chainPoint (d : List (HashItem q G)) (p : G) : List (HashItem q G) :=
  d ++ [HashItem.pt p]

/-- Absorb a slice of compressed points (`chain_points`). -/
def chainPoints (d : List (HashItem q G)) (ps : List G) : List (HashItem q G) :=
  d ++ ps.map HashItem.pt

/-- Absorb raw bytes (`chain_bytes`). -/
def chainBytes (d : List (HashItem q G)) (b : Bytes) : List (HashItem q G) :=
  d ++ [HashItem.bs b]

/-- Absorb a serialized scalar (`chain_scalar`). -/
def chainScalar (d : List (HashItem q G)) (s : ZMod q) : List (HashItem q G) :=
  d ++ [HashItem.sc s]

/-- Scalar hash of `random_oracles.rs`: the `hash_to_curvebn` tag, then the
optional customization bytes, then the compressed points, reduced to a
scalar. -/
def hash_to_scalar (C : Ctx q G Sg) (points : List G) (customization : Option Bytes) :
    ZMod q :=
  C.H ([HashItem.bs hashToCurvebnTag] ++
    (match customization with
      | some s => [HashItem.bs s]
      | none => []) ++ points.map HashItem.pt)

/-- Scalar inversion as the source sees it: k256 `invert` returns a `CtOption`
that is `None` exactly on the zero scalar, and computes the inverse by Fermat
exponentiation `x^(q-2)`. -/
def scalarInvert (x : ZMod q) : Option (ZMod q) :=
  if x = 0 then none else some (x ^ (q - 2))

/-- Modelled from the spec: `UmbralParameters` serialization (`params.rs` is
absent from the sources).  The spec's canonical encoding table makes the
capsule encoding exactly `E || V || s` (98 bytes), so the parameters
contribute no bytes. -/
def paramsToBytes : Bytes := []

/-- Serialized size of a capsule: parameters, two compressed points, one
scalar (`capsule.rs`, `CapsuleSize`). -/
def capsuleSizeBytes : ℕ := paramsToBytes.length + 33 + 33 + 32

namespace Capsule

/-- Capsule serialization (`capsule.rs::to_bytes`): parameter bytes, `E`
compressed, `V` compressed, `s` big-endian. -/
def to_bytes (C : Ctx q G Sg) (caps : Capsule q G) : Bytes :=
  paramsToBytes ++ C.pointBytes caps.point_e ++ C.pointBytes caps.point_v ++
    C.scalarBytes caps.signature

/-- Capsule deserialization (`capsule.rs::from_bytes`).  The source calls
`GenericArray::from_slice`, which panics when the length differs from
`CapsuleSize`, and then `unwrap`s every component decode; it never actually
returns `None`. -/
def from_bytes (C : Ctx q G Sg) (bytes : Bytes) : PanicOr (Option (Capsule q G)) :=
  if bytes.length = capsuleSizeBytes then
    let rest := bytes.drop paramsToBytes.length
    match C.decodePoint (rest.take 33), C.decodePoint ((rest.drop 33).take 33),
        C.decodeScalar (rest.drop 66) with
    | some e, some v, some s => PanicOr.ok (some ⟨e, v, s⟩)
    | _, _, _ => PanicOr.panicked
  else PanicOr.panicked

/-- Schnorr-style self-check (`capsule.rs::verify`): recompute
`h = H(E, V)` and check `s·g == V + h·E`. -/
def verify (C : Ctx q G Sg) (caps : Capsule q G) : Bool :=
  let h := C.H (chainPoint (chainPoint ScalarDigest.new caps.point_e) caps.point_v)
  decide (caps.signature • C.g = caps.point_v + h • caps.point_e)

/-- Encapsulation (`capsule.rs::from_pubkey`).  The two sampled nonzero
scalars are explicit arguments.  Returns the capsule and the KEM key seed. -/
def from_pubkey (C : Ctx q G Sg) (alice_pubkey : G) (priv_r priv_u : ZMod q) :
    Capsule q G × Bytes :=
  let pub_r := priv_r • C.g
  let pub_u := priv_u • C.g
  let h := C.H (chainPoints ScalarDigest.new [pub_r, pub_u])
  let s := priv_u + priv_r * h
  let shared_key := (priv_r + priv_u) • alice_pubkey
  (⟨pub_r, pub_u, s⟩, C.pointBytes shared_key)

/-- Original decapsulation (`capsule.rs::open_original`):
`seed = bytes((E + V)·sk)`. -/
def open_original (C : Ctx q G Sg) (caps : Capsule q G) (sk : ZMod q) : Bytes :=
  C.pointBytes (sk • (caps.point_e + caps.point_v))

/-- Attach the three correctness keys (`capsule.rs::with_correctness_keys`). -/
def with_correctness_keys (caps : Capsule q G) (delegating receiving verifying : G) :
    PreparedCapsule q G :=
  ⟨caps, delegating, receiving, verifying⟩

end Capsule

/-- DEM construction (`dem.rs::UmbralDEM::new`): derive the symmetric key from
the KEM seed with HKDF-BLAKE2b. -/
def UmbralDEM.new (C : Ctx q G Sg) (key_seed : Bytes) : Bytes :=
  C.demKdf key_seed

/-- Allocating DEM encryption (`dem.rs::encrypt`): fresh nonce (explicit
argument), AEAD over the data with the capsule bytes as associated data. -/
def demEncrypt (C : Ctx q G Sg) (dem : Bytes) (nonce data aad : Bytes) : Ciphertext :=
  ⟨nonce, C.aeadEnc dem nonce aad data⟩

/-- Allocating DEM decryption (`dem.rs::decrypt`). -/
def demDecrypt (C : Ctx q G Sg) (dem : Bytes) (ct : Ciphertext) (aad : Bytes) :
    Option Bytes :=
  C.aeadDec dem ct.nonce aad ct.data

/-- In-place DEM encryption (`dem.rs::encrypt_in_place`): AEAD-encrypt the
buffer, then append the nonce at the end.  The model buffer is unbounded, so
the `extend_from_slice` failure branch does not occur. -/
def demEncryptInPlace (C : Ctx q G Sg) (dem : Bytes) (nonce buffer aad : Bytes) :
    Option Bytes :=
  some (C.aeadEnc dem nonce aad buffer ++ nonce)

/-- In-place DEM decryption (`dem.rs::decrypt_in_place`): read the last 12
bytes as the nonce, truncate, AEAD-decrypt the rest.  Returns the resulting
buffer contents. -/
def demDecryptInPlace (C : Ctx q G Sg) (dem : Bytes) (buffer aad : Bytes) :
    Option Bytes :=
  let nonce := buffer.drop (buffer.length - 12)
  let rest := buffer.take (buffer.length - 12)
  C.aeadDec dem nonce aad rest

/-- Challenge-response proof of correct re-encryption
(`capsule_frag.rs::CapsuleFragProof::from_kfrag_and_cfrag`).  The sampled
nonzero scalar `t` is an explicit argument. -/
def CapsuleFragProof.from_kfrag_and_cfrag (C : Ctx q G Sg) (caps : Capsule q G)
    (kfrag : KeyFrag q G Sg) (cfrag_e1 cfrag_v1 : G) (metadata : ZMod q)
    (t : ZMod q) : CapsuleFragProof q G Sg :=
  let rk := kfrag.key
  let e := caps.point_e
  let v := caps.point_v
  let u1 := kfrag.commitment
  let e2 := t • e
  let v2 := t • v
  let u2 := t • C.u
  let h := hash_to_scalar C [e, cfrag_e1, e2, v, cfrag_v1, v2, C.u, u1, u2]
    (some (C.scalarBytes metadata))
  let z3 := t + rk * h
  ⟨e2, v2, u1, u2, z3, kfrag.signature_for_bob, metadata⟩

/-- Re-encryption (`capsule_frag.rs::CapsuleFrag::from_kfrag`): `E1 = rk·E`,
`V1 = rk·V`, metadata hashed to a scalar (zero when absent), plus the
correctness proof. -/
def CapsuleFrag.from_kfrag (C : Ctx q G Sg) (caps : Capsule q G) (kfrag : KeyFrag q G Sg)
    (metadata : Option Bytes) (t : ZMod q) : CapsuleFrag q G Sg :=
  let rk := kfrag.key
  let e1 := rk • caps.point_e
  let v1 := rk • caps.point_v
  let metadata_scalar := match metadata with
    | some s => hash_to_scalar C [] (some s)
    | none => 0
  ⟨e1, v1, kfrag.id, kfrag.precursor,
    CapsuleFragProof.from_kfrag_and_cfrag C caps kfrag e1 v1 metadata_scalar t⟩

/-- CFrag verification (`capsule_frag.rs::CapsuleFrag::verify`): the Bob-facing
KFrag signature check and the three Chaum-Pedersen equations with the
recomputed Fiat-Shamir challenge. -/
def CapsuleFrag.verify (C : Ctx q G Sg) (cf : CapsuleFrag q G Sg) (caps : Capsule q G)
    (delegating_pubkey receiving_pubkey signing_pubkey : G) : Bool :=
  let e := caps.point_e
  let v := caps.point_v
  let u1 := cf.proof.kfrag_commitment
  let h := hash_to_scalar C
    [e, cf.point_e1, cf.proof.point_e2, v, cf.point_v1, cf.proof.point_v2,
      C.u, u1, cf.proof.kfrag_pok]
    (some (C.scalarBytes cf.proof.metadata))
  let kfrag_validity_message :=
    C.scalarBytes cf.kfrag_id ++ C.hashSeed delegating_pubkey ++
      C.hashSeed receiving_pubkey ++ C.hashSeed u1 ++ C.hashSeed cf.precursor
  let valid_kfrag_signature :=
    C.verifySig signing_pubkey kfrag_validity_message cf.proof.kfrag_signature
  let z3 := cf.proof.signature
  valid_kfrag_signature &&
    decide (z3 • e = cf.proof.point_e2 + h • cf.point_e1) &&
    decide (z3 • v = cf.proof.point_v2 + h • cf.point_v1) &&
    decide (z3 • C.u = cf.proof.kfrag_pok + h • u1)

/-- Share-index hash: `H(precursor, pk_bob, dh, X_COORDINATE, id)`.  Translated
from `capsule.rs::LambdaCoeffHeap::new`; the spec-modelled KFrag generation
(section 4.3 step 5) computes the same chain. -/
def shareIndexOf (C : Ctx q G Sg) (precursor pk_bob dh : G) (id : ZMod q) : ZMod q :=
  C.H (chainScalar (chainBytes (chainPoints ScalarDigest.new [precursor, pk_bob, dh])
    xCoordinateTag) id)

/-- Non-interactivity scalar: `H(precursor, pk_bob, dh, NON_INTERACTIVE)`.
Translated from `capsule.rs::open_reencrypted_generic`; the spec-modelled KFrag
generation (section 4.3 step 3) computes the same chain. -/
def dFactor (C : Ctx q G Sg) (precursor pk_bob dh : G) : ZMod q :=
  C.H (chainBytes (chainPoints ScalarDigest.new [precursor, pk_bob, dh])
    nonInteractiveTag)

/-- Horner evaluation of the Shamir polynomial.  Modelled from the spec
(section 4.3 step 5, `rk_i = f(share_index_i)` by Horner's rule);
`key_frag.rs` is absent from the sources. -/
def polyEval (coeffs : List (ZMod q)) (x : ZMod q) : ZMod q :=
  coeffs.foldr (fun c acc => c + x * acc) 0

/-- Bob-facing signed message.  Modelled from the spec (section 4.3 step 5):
the concatenation of `id`, `pk_delegating`, `pk_receiving`, `commitment` and
`precursor`, exactly the message `capsule_frag.rs::verify` reconstructs. -/
def kfragMessageForBob (C : Ctx q G Sg) (id : ZMod q)
    (delegating receiving commitment precursor : G) : Bytes :=
  C.scalarBytes id ++ C.hashSeed delegating ++ C.hashSeed receiving ++
    C.hashSeed commitment ++ C.hashSeed precursor

/-- Shamir coefficient vector.  Modelled from the spec (section 4.3 step 4):
`f[0] = sk_alice · d⁻¹` followed by the fresh random tail coefficients
(explicit argument); `key_frag.rs` is absent from the sources. -/
def kfragCoeffs (C : Ctx q G Sg) (delegating_sk : ZMod q) (receiving_pk : G)
    (x_a : ZMod q) (tailCoeffs : List (ZMod q)) : List (ZMod q) :=
  let precursor := x_a • C.g
  let dh := x_a • receiving_pk
  delegating_sk * (dFactor C precursor receiving_pk dh)⁻¹ :: tailCoeffs

/-- One KFrag.  Modelled from the spec (section 4.3 step 5); `key_frag.rs` is
absent from the sources.  The share id and the ephemeral `x_a` are explicit
randomness arguments. -/
def genKFrag (C : Ctx q G Sg) (delegating_sk : ZMod q) (receiving_pk : G)
    (signing_sk : ZMod q) (x_a : ZMod q) (coeffs : List (ZMod q)) (id : ZMod q) :
    KeyFrag q G Sg :=
  let precursor := x_a • C.g
  let dh := x_a • receiving_pk
  let key := polyEval coeffs (shareIndexOf C precursor receiving_pk dh id)
  let commitment := key • C.u
  let delegating_pk := delegating_sk • C.g
  ⟨id, key, precursor, commitment,
    C.signMsg signing_sk
      (kfragMessageForBob C id delegating_pk receiving_pk commitment precursor)⟩

/-- KFrag generation.  Modelled from the spec (section 4.3); `key_frag.rs` is
absent from the sources.  One KFrag per supplied share id, all sharing the
polynomial built from `x_a` and the tail coefficients. -/
def generate_kfrags (C : Ctx q G Sg) (delegating_sk : ZMod q) (receiving_pk : G)
    (signing_sk : ZMod q) (x_a : ZMod q) (tailCoeffs : List (ZMod q))
    (ids : List (ZMod q)) : List (KeyFrag q G Sg) :=
  ids.map (genKFrag C delegating_sk receiving_pk signing_sk x_a
    (kfragCoeffs C delegating_sk receiving_pk x_a tailCoeffs))

/-- Inner loop of `capsule.rs::lambda_coeff`: multiply in
`xs[j] · (xs[j] − xs[i])⁻¹` for every `j ≠ i` in the index list, panicking
(`none`) when the k256 inversion of a zero denominator is `unwrap`ped. -/
def lambdaLoop (xs : List (ZMod q)) (i : ℕ) : List ℕ → ZMod q → Option (ZMod q)
  | [], res => some res
  | j :: js, res =>
    if j = i then lambdaLoop xs i js res
    else
      (scalarInvert (xs.getD j 0 - xs.getD i 0)).bind
        (fun inv => lambdaLoop xs i js (res * xs.getD j 0 * inv))

/-- Lagrange coefficient at 0 (`capsule.rs::lambda_coeff`). -/
def lambda_coeff (xs : List (ZMod q)) (i : ℕ) : Option (ZMod q) :=
  lambdaLoop xs i (List.range xs.length) 1

/-- Closed form of the Lagrange coefficient:
`Π_{j ≠ i} xs[j] · (xs[j] − xs[i])⁻¹`. -/
def lamProd (xs : List (ZMod q)) (i : ℕ) : ZMod q :=
  ∏ j ∈ (Finset.range xs.length).erase i, xs.getD j 0 * (xs.getD j 0 - xs.getD i 0)⁻¹

/-- Accumulation loop of `capsule.rs::open_reencrypted_generic`: for each
CFrag, assert that its precursor matches, compute its Lagrange coefficient
(whose inner `unwrap` may panic) and add `λ_i·E1_i` and `λ_i·V1_i`. -/
def accumPrime (precursor : G) (lcs : List (ZMod q)) :
    ℕ → List (CapsuleFrag q G Sg) → G → G → PanicOr (G × G)
  | _, [], ep, vp => PanicOr.ok (ep, vp)
  | i, cf :: rest, ep, vp =>
    if precursor = cf.precursor then
      optPanic (lambda_coeff lcs i)
        (fun lam =>
          accumPrime precursor lcs (i + 1) rest (ep + lam • cf.point_e1)
            (vp + lam • cf.point_v1))
    else PanicOr.panicked

/-- Threshold decapsulation (`capsule.rs::open_reencrypted_generic`): combine
the CFrags by Lagrange interpolation, recompute `d`, check
`pk_delegating·(s·d⁻¹) == h·E' + V'` (an `assert!` in the source) and derive
the seed `bytes(d·(E' + V'))`.  Panics on an empty CFrag slice
(`cfrags[0]`), on a mixed precursor, on a zero denominator or zero `d`
(`invert().unwrap()`), and on a failed consistency check. -/
def Capsule.open_reencrypted (C : Ctx q G Sg) (caps : Capsule q G)
    (receiving_sk : ZMod q) (delegating_key : G) (cfrags : List (CapsuleFrag q G Sg)) :
    PanicOr Bytes :=
  match cfrags with
  | [] => PanicOr.panicked
  | c0 :: _ =>
    let pub_key := receiving_sk • C.g
    let precursor := c0.precursor
    let dh_point := receiving_sk • precursor
    let lcs := cfrags.map (fun cf => shareIndexOf C precursor pub_key dh_point cf.kfrag_id)
    (accumPrime precursor lcs 0 cfrags 0 0).bind (fun pr =>
      let e_prime := pr.1
      let v_prime := pr.2
      let d := dFactor C precursor pub_key dh_point
      let h := C.H (chainPoints ScalarDigest.new [caps.point_e, caps.point_v])
      optPanic (scalarInvert d) (fun dinv =>
        if (caps.signature * dinv) • delegating_key = h • e_prime + v_prime then
          PanicOr.ok (C.pointBytes (d • (e_prime + v_prime)))
        else PanicOr.panicked))

/-- Proof-checked threshold decapsulation
(`capsule.rs::PreparedCapsule::open_reencrypted`): when `check_proof` is set,
`assert!` that every CFrag verifies, then open. -/
def PreparedCapsule.open_reencrypted (C : Ctx q G Sg) (pc : PreparedCapsule q G)
    (cfrags : List (CapsuleFrag q G Sg)) (receiving_sk : ZMod q) (check_proof : Bool) :
    PanicOr Bytes :=
  if check_proof &&
      !(cfrags.all (fun cf =>
        CapsuleFrag.verify C cf pc.capsule pc.delegating_key pc.receiving_key
          pc.verifying_key)) then
    PanicOr.panicked
  else Capsule.open_reencrypted C pc.capsule receiving_sk pc.delegating_key cfrags

/-- Public encryption (`pre.rs::encrypt`): encapsulate, derive the DEM key,
AEAD-encrypt with the capsule bytes as associated data.  The KEM scalars and
the AEAD nonce are explicit randomness arguments. -/
def encrypt (C : Ctx q G Sg) (alice_pubkey : G) (plaintext : Bytes)
    (priv_r priv_u : ZMod q) (nonce : Bytes) : Ciphertext × Capsule q G :=
  let res := Capsule.from_pubkey C alice_pubkey priv_r priv_u
  let dem := UmbralDEM.new C res.2
  let capsule_bytes := Capsule.to_bytes C res.1
  (demEncrypt C dem nonce plaintext capsule_bytes, res.1)

/-- Original-recipient decryption (`pre.rs::decrypt_original`). -/
def decrypt_original (C : Ctx q G Sg) (ct : Ciphertext) (caps : Capsule q G)
    (decrypting_sk : ZMod q) : Option Bytes :=
  let key_seed := Capsule.open_original C caps decrypting_sk
  demDecrypt C (UmbralDEM.new C key_seed) ct (Capsule.to_bytes C caps)

/-- Re-encrypted decryption (`pre.rs::decrypt_reencrypted`): open the prepared
capsule through the CFrags (which can panic, see above), then AEAD-decrypt. -/
def decrypt_reencrypted (C : Ctx q G Sg) (ct : Ciphertext) (pc : PreparedCapsule q G)
    (cfrags : List (CapsuleFrag q G Sg)) (decrypting_sk : ZMod q)
    (check_proof : Bool) : PanicOr (Option Bytes) :=
  (PreparedCapsule.open_reencrypted C pc cfrags decrypting_sk check_proof).bind
    (fun key_seed =>
      PanicOr.ok
        (demDecrypt C (UmbralDEM.new C key_seed) ct (Capsule.to_bytes C pc.capsule)))

end Ops

section Demo

/-!
Concrete instantiation used by the witnesses: the curve group of prime order
`q` is cyclic, so `ZMod 5` with generator `1` (scalar action = multiplication)
is a faithful small model, and the abstract primitives are given simple
computable realizations.
-/

/-- Fact instance so that `ZMod 5` is a field in the witnesses. -/
instance factPrimeFive : Fact (Nat.Prime 5) := ⟨by norm_num⟩

/-- Demo signature type: the signer's public key together with the message. -/
abbrev DemoSig := ZMod 5 × Bytes

/-- Value of one hash item in the demo hash. -/
def itemValue : HashItem 5 (ZMod 5) → ZMod 5
  | HashItem.pt p => p
  | HashItem.sc s => s
  | HashItem.bs b => (b.sum : ℕ)

/-- Demo scalar hash: sum of the item values. -/
def demoHash (l : List (HashItem 5 (ZMod 5))) : ZMod 5 :=
  (l.map itemValue).sum

/-- Demo context over `ZMod 5` with identity-like primitives. -/
def demoCtx : Ctx 5 (ZMod 5) DemoSig where
  H := demoHash
  g := 1
  u := 1
  pointBytes := fun p => [p.val]
  scalarBytes := fun s => [s.val]
  hashSeed := fun p => [p.val]
  signMsg := fun sk m => (sk • (1 : ZMod 5), m)
  verifySig := fun pk m s => decide (s.1 = pk) && decide (s.2 = m)
  aeadEnc := fun _ _ _ m => m
  aeadDec := fun _ _ _ c => some c
  demKdf := fun s => s
  decodePoint := fun b =>
    match b with
    | x :: _ => some ((x : ℕ) : ZMod 5)
    | [] => none
  decodeScalar := fun b => some ((b.sum : ℕ) : ZMod 5)

/-- Demo context with fixed-width encodings (33-byte points, 32-byte
scalars), matching the curve contract of spec section 6. -/
def demoCtxSer : Ctx 5 (ZMod 5) DemoSig :=
  { demoCtx with
    pointBytes := fun p => List.replicate 32 0 ++ [p.val]
    scalarBytes := fun s => List.replicate 31 0 ++ [s.val] }

/-- CFrag with precursor `0` (arbitrary remaining fields), used to exhibit the
mixed-precursor panic. -/
def demoCfragA : CapsuleFrag 5 (ZMod 5) DemoSig :=
  ⟨0, 0, 1, 0, ⟨0, 0, 0, 0, 0, (0, []), 0⟩⟩

/-- CFrag with precursor `1` and a different `kfrag_id`. -/
def demoCfragB : CapsuleFrag 5 (ZMod 5) DemoSig :=
  ⟨0, 0, 2, 1, ⟨0, 0, 0, 0, 0, (0, []), 0⟩⟩

/-- Prepared capsule over the demo context (keys and capsule components are
arbitrary small values). -/
def demoPrepared : PreparedCapsule 5 (ZMod 5) :=
  ⟨⟨1, 1, 1⟩, 1, 1, 1⟩

/-- Demo ciphertext. -/
def demoCiphertext : Ciphertext := ⟨List.replicate 12 0, [7]⟩

end Demo

section Theorems

variable {q : ℕ} {G : Type} {Sg : Type}
variable [AddCommGroup G] [Module (ZMod q) G] [DecidableEq G]

/-- Fermat inversion agrees with the field inverse away from zero. -/
theorem scalarInvert_of_ne_zero [Fact (Nat.Prime q)] {x : ZMod q} (hx : x ≠ 0) :
    scalarInvert x = some x⁻¹ := by
  rw [scalarInvert, if_neg hx]
  congr 1
  have hq : 2 ≤ q := (Fact.out (p := Nat.Prime q)).two_le
  have hmul : x * x ^ (q - 2) = 1 := by
    have hstep : q - 2 + 1 = q - 1 := by omega
    calc x * x ^ (q - 2) = x ^ (q - 2 + 1) := (pow_succ' x (q - 2)).symm
      _ = x ^ (q - 1) := by rw [hstep]
      _ = 1 := ZMod.pow_card_sub_one_eq_one hx
  exact eq_inv_of_mul_eq_one_left (by rw [mul_comm] at hmul; exact hmul)

omit [DecidableEq G] in
/-- Scalars commute past each other in a module over `ZMod q`. -/
theorem smul_swap (a b : ZMod q) (x : G) : a • b • x = b • a • x := by
  rw [smul_smul, smul_smul, mul_comm]

/-- C3: a freshly encapsulated capsule passes its Schnorr-style self-check:
with `E = r·g`, `V = u·g`, `h = H(E, V)` and `s = u + r·h`, the components
satisfy `s·g = V + h·E`, so `Capsule::verify` returns `true`. -/
theorem fresh_capsule_verify_true (C : Ctx q G Sg) (alice_pubkey : G)
    (priv_r priv_u : ZMod q) :
    Capsule.verify C (Capsule.from_pubkey C alice_pubkey priv_r priv_u).1 = true := by
  simp only [Capsule.verify, Capsule.from_pubkey, decide_eq_true_eq]
  rw [add_smul, mul_smul, smul_swap]
  rfl

omit [DecidableEq G] in
/-- C9: the metadata scalar stored in the CFrag proof is
`hash_to_scalar([], metadata)` when metadata is supplied and the zero scalar
(`CurveScalar::default()`) when it is absent. -/
theorem from_kfrag_metadata_scalar (C : Ctx q G Sg) (caps : Capsule q G)
    (kfrag : KeyFrag q G Sg) (metadata : Option Bytes) (t : ZMod q) :
    (CapsuleFrag.from_kfrag C caps kfrag metadata t).proof.metadata =
      match metadata with
      | some m => hash_to_scalar C [] (some m)
      | none => 0 := by
  cases metadata <;> rfl

omit [DecidableEq G] in
/-- C4: an honestly generated CFrag satisfies the three Chaum-Pedersen
equations of `CapsuleFrag::verify` — `E·z3 = E2 + h·E1`, `V·z3 = V2 + h·V1`
and `u·z3 = U2 + h·U1` — where `h` is the challenge the verifier recomputes
from the nine points and the stored metadata scalar. -/
theorem honest_cfrag_algebraic_checks (C : Ctx q G Sg) (caps : Capsule q G)
    (kfrag : KeyFrag q G Sg) (metadata : Option Bytes) (t : ZMod q)
    (hcomm : kfrag.commitment = kfrag.key • C.u)
    (cf : CapsuleFrag q G Sg) (hcf : cf = CapsuleFrag.from_kfrag C caps kfrag metadata t)
    (h : ZMod q)
    (hh : h = hash_to_scalar C
      [caps.point_e, cf.point_e1, cf.proof.point_e2, caps.point_v, cf.point_v1,
        cf.proof.point_v2, C.u, cf.proof.kfrag_commitment, cf.proof.kfrag_pok]
      (some (C.scalarBytes cf.proof.metadata))) :
    cf.proof.signature • caps.point_e = cf.proof.point_e2 + h • cf.point_e1 ∧
      cf.proof.signature • caps.point_v = cf.proof.point_v2 + h • cf.point_v1 ∧
      cf.proof.signature • C.u = cf.proof.kfrag_pok + h • cf.proof.kfrag_commitment := by
  subst hcf
  subst hh
  refine ⟨?_, ?_, ?_⟩
  · simp only [CapsuleFrag.from_kfrag, CapsuleFragProof.from_kfrag_and_cfrag]
    rw [add_smul, mul_smul, smul_swap]
  · simp only [CapsuleFrag.from_kfrag, CapsuleFragProof.from_kfrag_and_cfrag]
    rw [add_smul, mul_smul, smul_swap]
  · simp only [CapsuleFrag.from_kfrag, CapsuleFragProof.from_kfrag_and_cfrag]
    rw [hcomm, add_smul, mul_smul, smul_swap]

/-- C4 witness at a concrete input. -/
theorem honest_cfrag_algebraic_checks_witness :
    (CapsuleFrag.from_kfrag demoCtx ⟨1, 2, 3⟩ ⟨1, 2, 1, 2, (0, [])⟩ (some [5]) 3).proof.signature •
        (1 : ZMod 5) =
      (CapsuleFrag.from_kfrag demoCtx ⟨1, 2, 3⟩ ⟨1, 2, 1, 2, (0, [])⟩ (some [5]) 3).proof.point_e2 +
        hash_to_scalar demoCtx
          [1,
            (CapsuleFrag.from_kfrag demoCtx ⟨1, 2, 3⟩ ⟨1, 2, 1, 2, (0, [])⟩ (some [5]) 3).point_e1,
            (CapsuleFrag.from_kfrag demoCtx ⟨1, 2, 3⟩ ⟨1, 2, 1, 2, (0, [])⟩ (some [5]) 3).proof.point_e2,
            2,
            (CapsuleFrag.from_kfrag demoCtx ⟨1, 2, 3⟩ ⟨1, 2, 1, 2, (0, [])⟩ (some [5]) 3).point_v1,
            (CapsuleFrag.from_kfrag demoCtx ⟨1, 2, 3⟩ ⟨1, 2, 1, 2, (0, [])⟩ (some [5]) 3).proof.point_v2,
            demoCtx.u,
            (CapsuleFrag.from_kfrag demoCtx ⟨1, 2, 3⟩ ⟨1, 2, 1, 2, (0, [])⟩ (some [5]) 3).proof.kfrag_commitment,
            (CapsuleFrag.from_kfrag demoCtx ⟨1, 2, 3⟩ ⟨1, 2, 1, 2, (0, [])⟩ (some [5]) 3).proof.kfrag_pok]
          (some (demoCtx.scalarBytes
            (CapsuleFrag.from_kfrag demoCtx ⟨1, 2, 3⟩ ⟨1, 2, 1, 2, (0, [])⟩ (some [5]) 3).proof.metadata)) •
          (CapsuleFrag.from_kfrag demoCtx ⟨1, 2, 3⟩ ⟨1, 2, 1, 2, (0, [])⟩ (some [5]) 3).point_e1 :=
  (honest_cfrag_algebraic_checks demoCtx ⟨1, 2, 3⟩ ⟨1, 2, 1, 2, (0, [])⟩ (some [5]) 3
    (by decide) _ rfl _ rfl).1

omit [AddCommGroup G] [Module (ZMod q) G] [DecidableEq G] in
/-- C5: capsule serialization is the compressed `E`, then the compressed `V`,
then the big-endian scalar `s`, and nothing else; with 33-byte point and
32-byte scalar encodings it is exactly 98 bytes. -/
theorem capsule_to_bytes_layout (C : Ctx q G Sg) (caps : Capsule q G)
    (hP : ∀ p, (C.pointBytes p).length = 33)
    (hS : ∀ s, (C.scalarBytes s).length = 32) :
    Capsule.to_bytes C caps =
        C.pointBytes caps.point_e ++ C.pointBytes caps.point_v ++
          C.scalarBytes caps.signature ∧
      (Capsule.to_bytes C caps).length = 98 := by
  constructor
  · rfl
  · simp [Capsule.to_bytes, paramsToBytes, hP, hS]

/-- C5 witness at a concrete input. -/
theorem capsule_to_bytes_layout_witness :
    Capsule.to_bytes demoCtxSer ⟨1, 2, 3⟩ =
        demoCtxSer.pointBytes 1 ++ demoCtxSer.pointBytes 2 ++ demoCtxSer.scalarBytes 3 ∧
      (Capsule.to_bytes demoCtxSer ⟨1, 2, 3⟩).length = 98 :=
  capsule_to_bytes_layout demoCtxSer ⟨1, 2, 3⟩ (by decide) (by decide)

omit [AddCommGroup G] [Module (ZMod q) G] [DecidableEq G] in
/-- C6 counter-evidence: `Capsule::from_bytes` on a wrong-length input (here
the empty byte string) panics inside `GenericArray::from_slice` instead of
returning an `InvalidEncoding`/`None` value, for every decoder. -/
theorem capsule_from_bytes_empty_panics (C : Ctx q G Sg) :
    Capsule.from_bytes C ([] : Bytes) = PanicOr.panicked := rfl

/-- C7 counter-evidence: on a CFrag set with mixed precursors,
`decrypt_reencrypted` panics in the `assert!(precursor == cfrag.precursor)` of
`open_reencrypted_generic` instead of returning an error value. -/
theorem decrypt_reencrypted_mixed_precursor_panics :
    decrypt_reencrypted demoCtx demoCiphertext demoPrepared [demoCfragA, demoCfragB] 1
        false =
      PanicOr.panicked := by decide

omit [DecidableEq G] in
/-- C2: KEM/DEM roundtrip for the original recipient — decrypting
`encrypt(params, pk, msg)` with the matching secret key returns `msg`,
assuming the AEAD roundtrip contract of the external cipher. -/
theorem decrypt_original_roundtrip (C : Ctx q G Sg) (sk priv_r priv_u : ZMod q)
    (msg nonce : Bytes)
    (haead : ∀ k n a m, C.aeadDec k n a (C.aeadEnc k n a m) = some m) :
    decrypt_original C (encrypt C (sk • C.g) msg priv_r priv_u nonce).1
        (encrypt C (sk • C.g) msg priv_r priv_u nonce).2 sk =
      some msg := by
  have hseed : sk • (priv_r • C.g + priv_u • C.g) = (priv_r + priv_u) • (sk • C.g) := by
    rw [smul_add, add_smul, smul_swap sk priv_r, smul_swap sk priv_u]
  simp only [decrypt_original, encrypt, Capsule.open_original, Capsule.from_pubkey,
    demDecrypt, demEncrypt, UmbralDEM.new]
  rw [hseed]
  exact haead _ _ _ _

/-- C2 witness at a concrete input. -/
theorem decrypt_original_roundtrip_witness :
    decrypt_original demoCtx
        (encrypt demoCtx ((2 : ZMod 5) • demoCtx.g) [7] 1 2 (List.replicate 12 0)).1
        (encrypt demoCtx ((2 : ZMod 5) • demoCtx.g) [7] 1 2 (List.replicate 12 0)).2 2 =
      some [7] :=
  decrypt_original_roundtrip demoCtx 2 1 2 [7] (List.replicate 12 0) (fun _ _ _ _ => rfl)

omit [AddCommGroup G] [Module (ZMod q) G] [DecidableEq G] in
/-- C10: the in-place DEM appends the 12-byte nonce at the end of the buffer
after the AEAD output (ciphertext and tag), and in-place decryption with the
same key and associated data strips it from the end and restores the original
buffer contents. -/
theorem dem_in_place_roundtrip (C : Ctx q G Sg) (dem nonce buffer aad : Bytes)
    (hn : nonce.length = 12)
    (haead : ∀ k n a m, C.aeadDec k n a (C.aeadEnc k n a m) = some m) :
    demEncryptInPlace C dem nonce buffer aad =
        some (C.aeadEnc dem nonce aad buffer ++ nonce) ∧
      demDecryptInPlace C dem (C.aeadEnc dem nonce aad buffer ++ nonce) aad =
        some buffer := by
  refine ⟨rfl, ?_⟩
  simp only [demDecryptInPlace]
  have hl : (C.aeadEnc dem nonce aad buffer ++ nonce).length - 12 =
      (C.aeadEnc dem nonce aad buffer).length := by
    simp [hn]
  rw [hl, List.drop_left, List.take_left]
  exact haead _ _ _ _

/-- C10 witness at a concrete input. -/
theorem dem_in_place_roundtrip_witness :
    demEncryptInPlace demoCtx [1] (List.replicate 12 3) [9, 9] [4] =
        some (demoCtx.aeadEnc [1] (List.replicate 12 3) [4] [9, 9] ++ List.replicate 12 3) ∧
      demDecryptInPlace demoCtx [1]
          (demoCtx.aeadEnc [1] (List.replicate 12 3) [4] [9, 9] ++ List.replicate 12 3) [4] =
        some [9, 9] :=
  dem_in_place_roundtrip demoCtx [1] (List.replicate 12 3) [9, 9] [4] (by decide)
    (fun _ _ _ _ => rfl)

/-- Distinct entries of a pairwise-distinct list at distinct valid indices. -/
theorem pairwise_getD_ne {lcs : List (ZMod q)} (hdist : lcs.Pairwise (· ≠ ·))
    {a b : ℕ} (ha : a < lcs.length) (hb : b < lcs.length) (hab : a ≠ b) :
    lcs.getD a 0 ≠ lcs.getD b 0 := by
  have h := List.pairwise_iff_getElem.mp hdist
  rw [List.getD_eq_getElem?_getD, List.getElem?_eq_getElem ha,
    List.getD_eq_getElem?_getD, List.getElem?_eq_getElem hb]
  rcases Nat.lt_or_ge a b with hlt | hge
  · exact h a b ha hb hlt
  · have hlt : b < a := by omega
    exact (h b a hb ha hlt).symm

/-- Loop invariant of `lambda_coeff`: over any index list avoiding zero
denominators, the loop returns the running product times the product of
`xs[j] · (xs[j] − xs[i])⁻¹` over the retained indices. -/
theorem lambdaLoop_eq [Fact (Nat.Prime q)] (xs : List (ZMod q)) (i : ℕ)
    (l : List ℕ) (res : ZMod q)
    (h : ∀ j ∈ l, j ≠ i → xs.getD j 0 - xs.getD i 0 ≠ 0) :
    lambdaLoop xs i l res =
      some (res * ((l.filter (fun j => j ≠ i)).map
        (fun j => xs.getD j 0 * (xs.getD j 0 - xs.getD i 0)⁻¹)).prod) := by
  induction l generalizing res with
  | nil => simp [lambdaLoop]
  | cons j js ih =>
    by_cases hj : j = i
    · subst hj
      rw [lambdaLoop, if_pos rfl]
      rw [ih res (fun k hk => h k (List.mem_cons_of_mem _ hk))]
      simp [List.filter_cons]
    · have hsub : xs.getD j 0 - xs.getD i 0 ≠ 0 := h j (List.mem_cons_self _ _) hj
      rw [lambdaLoop, if_neg hj, scalarInvert_of_ne_zero hsub]
      change lambdaLoop xs i js (res * xs.getD j 0 * (xs.getD j 0 - xs.getD i 0)⁻¹) = _
      rw [ih _ (fun k hk => h k (List.mem_cons_of_mem _ hk))]
      have hfil : (j :: js).filter (fun k => k ≠ i) =
          j :: js.filter (fun k => k ≠ i) := by
        simp [List.filter_cons, hj]
      rw [hfil, List.map_cons, List.prod_cons]
      congr 1
      ring

/-- List-range product of retained indices equals the `Finset` product over
the erased range. -/
theorem rangeFilterMapProd {M : Type} [CommMonoid M] (n i : ℕ) (f : ℕ → M) :
    (((List.range n).filter (fun j => j ≠ i)).map f).prod =
      ∏ j ∈ (Finset.range n).erase i, f j := by
  induction n with
  | zero => simp
  | succ n ih =>
    rw [List.range_succ, List.filter_append, List.map_append, List.prod_append]
    by_cases hn : n = i
    · subst hn
      rw [Finset.range_succ, Finset.erase_insert Finset.not_mem_range_self]
      have hfil : [n].filter (fun j => j ≠ n) = [] := by simp
      rw [hfil, List.map_nil, List.prod_nil, mul_one, ih,
        Finset.erase_eq_of_not_mem Finset.not_mem_range_self]
    · have hfil : [n].filter (fun j => j ≠ i) = [n] := by simp [hn]
      rw [hfil, List.map_singleton, List.prod_singleton, ih]
      rw [Finset.range_succ, Finset.erase_insert_of_ne hn, Finset.prod_insert (by
        intro hmem
        exact Finset.not_mem_range_self (Finset.mem_of_mem_erase hmem))]
      exact mul_comm _ _

/-- Closed form of `lambda_coeff` on pairwise-distinct inputs. -/
theorem lambda_coeff_closed [Fact (Nat.Prime q)] (xs : List (ZMod q)) (i : ℕ)
    (hdist : xs.Pairwise (· ≠ ·)) (hi : i < xs.length) :
    lambda_coeff xs i = some (lamProd xs i) := by
  rw [lambda_coeff, lambdaLoop_eq xs i (List.range xs.length) 1 (by
    intro j hj hne
    exact sub_ne_zero_of_ne (pairwise_getD_ne hdist (List.mem_range.mp hj) hi hne))]
  rw [one_mul, rangeFilterMapProd]
  rfl

/-- C8: on pairwise-distinct share indices the Lagrange coefficient loop
never hits a zero denominator — every `invert().unwrap()` succeeds — and the
result is `Π_{j ≠ i} xs[j] · (xs[j] − xs[i])⁻¹`. -/
theorem lambda_coeff_distinct_closed_form [Fact (Nat.Prime q)] (xs : List (ZMod q))
    (i : ℕ) (hdist : xs.Pairwise (· ≠ ·)) (hi : i < xs.length) :
    lambda_coeff xs i = some (lamProd xs i) :=
  lambda_coeff_closed xs i hdist hi

/-- C8 witness at a concrete input. -/
theorem lambda_coeff_distinct_closed_form_witness :
    lambda_coeff [(1 : ZMod 5), 2] 0 = some (lamProd [(1 : ZMod 5), 2] 0) :=
  lambda_coeff_distinct_closed_form [(1 : ZMod 5), 2] 0 (by decide) (by decide)

/-- Horner evaluation agrees with polynomial evaluation of the coefficient
list. -/
theorem polyEval_eq_eval (coeffs : List (ZMod q)) (x : ZMod q) :
    polyEval coeffs x =
      Polynomial.eval x
        (coeffs.foldr (fun c p => Polynomial.C c + Polynomial.X * p) 0) := by
  induction coeffs with
  | nil => simp [polyEval]
  | cons c cs ih =>
    simp only [polyEval, List.foldr_cons, Polynomial.eval_add, Polynomial.eval_C,
      Polynomial.eval_mul, Polynomial.eval_X]
    rw [← ih]
    rfl

/-- The polynomial built from a coefficient list has degree below the list
length. -/
theorem degree_foldr_lt (coeffs : List (ZMod q)) :
    (coeffs.foldr (fun c p => Polynomial.C c + Polynomial.X * p) 0).degree <
      (coeffs.length : WithBot ℕ) := by
  induction coeffs with
  | nil =>
    simp only [List.foldr_nil, Polynomial.degree_zero, List.length_nil,
      Nat.cast_zero]
    exact WithBot.bot_lt_coe 0
  | cons c cs ih =>
    simp only [List.foldr_cons, List.length_cons]
    apply lt_of_le_of_lt (Polynomial.degree_add_le _ _)
    apply max_lt
    · apply lt_of_le_of_lt Polynomial.degree_C_le
      exact_mod_cast Nat.succ_pos cs.length
    · apply lt_of_le_of_lt (Polynomial.degree_mul_le _ _)
      apply lt_of_le_of_lt (add_le_add Polynomial.degree_X_le (le_refl _))
      have h1 : (1 : WithBot ℕ) +
          (cs.foldr (fun c p => Polynomial.C c + Polynomial.X * p) 0).degree <
          1 + (cs.length : WithBot ℕ) :=
        WithBot.add_lt_add_left (by simp) ih
      refine lt_of_lt_of_le h1 (le_of_eq ?_)
      push_cast
      ring

/-- Evaluation of a Lagrange basis divisor at zero. -/
theorem eval_zero_basisDivisor [Fact (Nat.Prime q)] (x y : ZMod q) :
    Polynomial.eval 0 (Lagrange.basisDivisor x y) = y * (y - x)⁻¹ := by
  simp only [Lagrange.basisDivisor, Polynomial.eval_mul, Polynomial.eval_C,
    Polynomial.eval_sub, Polynomial.eval_X]
  have hyx : y - x = -(x - y) := by ring
  rw [hyx, inv_neg]
  ring

/-- Evaluation of a Lagrange basis polynomial at zero is the reconstruction
coefficient `lamProd`. -/
theorem eval_zero_basis [Fact (Nat.Prime q)] (lcs : List (ZMod q)) (i : ℕ) :
    Polynomial.eval 0
        (Lagrange.basis (Finset.range lcs.length) (fun j => lcs.getD j 0) i) =
      lamProd lcs i := by
  rw [show Lagrange.basis (Finset.range lcs.length) (fun j => lcs.getD j 0) i =
      ∏ j ∈ (Finset.range lcs.length).erase i,
        Lagrange.basisDivisor (lcs.getD i 0) (lcs.getD j 0) from rfl]
  rw [Polynomial.eval_prod, lamProd]
  exact Finset.prod_congr rfl (fun j _ => eval_zero_basisDivisor _ _)

/-- Shamir reconstruction at zero: over pairwise-distinct share indices, the
`lamProd`-weighted sum of the Horner evaluations returns the constant
coefficient. -/
theorem lagrangeSumAtZero [Fact (Nat.Prime q)] (lcs coeffs : List (ZMod q))
    (hdist : lcs.Pairwise (· ≠ ·)) (hlen : coeffs.length ≤ lcs.length) :
    ∑ j ∈ Finset.range lcs.length, lamProd lcs j * polyEval coeffs (lcs.getD j 0) =
      polyEval coeffs 0 := by
  classical
  have hinj : Set.InjOn (fun j => lcs.getD j 0) (Finset.range lcs.length) := by
    intro a ha b hb hab
    by_contra hne
    exact pairwise_getD_ne hdist (Finset.mem_range.mp (Finset.mem_coe.mp ha))
      (Finset.mem_range.mp (Finset.mem_coe.mp hb)) hne hab
  have hdeg : (coeffs.foldr (fun c p => Polynomial.C c + Polynomial.X * p) 0).degree <
      ((Finset.range lcs.length).card : WithBot ℕ) := by
    rw [Finset.card_range]
    refine lt_of_lt_of_le (degree_foldr_lt coeffs) ?_
    exact_mod_cast hlen
  have key := Lagrange.eq_interpolate
    (f := coeffs.foldr (fun c p => Polynomial.C c + Polynomial.X * p) 0) hinj hdeg
  have he := congrArg (Polynomial.eval 0) key
  rw [Lagrange.interpolate_apply, Polynomial.eval_finset_sum] at he
  rw [polyEval_eq_eval, he]
  refine Finset.sum_congr rfl (fun j _ => ?_)
  rw [Polynomial.eval_mul, Polynomial.eval_C, eval_zero_basis, polyEval_eq_eval]
  exact mul_comm _ _

/-- Loop invariant of the reconstruction loop in `open_reencrypted_generic`:
on CFrags with matching precursors whose `E1`/`V1` are scalar multiples of
fixed points, the loop succeeds and accumulates the `lamProd`-weighted sums. -/
theorem accumPrime_spec {α : Type} (d : α) (cf : α → CapsuleFrag q G Sg) (rk : α → ZMod q)
    (E V precursor : G) (lcs : List (ZMod q)) (shs : List α) (k : ℕ) (ep vp : G)
    (hpre : ∀ sh ∈ shs, (cf sh).precursor = precursor)
    (he1 : ∀ sh ∈ shs, (cf sh).point_e1 = rk sh • E)
    (hv1 : ∀ sh ∈ shs, (cf sh).point_v1 = rk sh • V)
    (hlam : ∀ j, j < k + shs.length → lambda_coeff lcs j = some (lamProd lcs j)) :
    accumPrime precursor lcs k (shs.map cf) ep vp =
      PanicOr.ok
        (ep + (∑ j ∈ Finset.range shs.length, lamProd lcs (k + j) * rk (shs.getD j d)) • E,
          vp + (∑ j ∈ Finset.range shs.length, lamProd lcs (k + j) * rk (shs.getD j d)) • V) := by
  induction shs generalizing k ep vp with
  | nil => simp [accumPrime]
  | cons sh rest ih =>
    rw [List.map_cons]
    rw [show accumPrime precursor lcs k (cf sh :: rest.map cf) ep vp =
        (if precursor = (cf sh).precursor then
          optPanic (lambda_coeff lcs k)
            (fun lam =>
              accumPrime precursor lcs (k + 1) (rest.map cf)
                (ep + lam • (cf sh).point_e1) (vp + lam • (cf sh).point_v1))
        else PanicOr.panicked) from rfl]
    rw [if_pos (hpre sh (List.mem_cons_self _ _)).symm]
    rw [hlam k (by simp only [List.length_cons]; omega)]
    change accumPrime precursor lcs (k + 1) (rest.map cf)
        (ep + lamProd lcs k • (cf sh).point_e1)
        (vp + lamProd lcs k • (cf sh).point_v1) = _
    rw [he1 sh (List.mem_cons_self _ _), hv1 sh (List.mem_cons_self _ _)]
    rw [ih (k + 1) _ _ (fun x hx => hpre x (List.mem_cons_of_mem _ hx))
      (fun x hx => he1 x (List.mem_cons_of_mem _ hx))
      (fun x hx => hv1 x (List.mem_cons_of_mem _ hx))
      (fun j hj => hlam j (by simp only [List.length_cons] at *; omega))]
    have hsum : (∑ j ∈ Finset.range (sh :: rest).length,
          lamProd lcs (k + j) * rk ((sh :: rest).getD j d)) =
        lamProd lcs k * rk sh +
          ∑ j ∈ Finset.range rest.length, lamProd lcs (k + 1 + j) * rk (rest.getD j d) := by
      rw [List.length_cons, Finset.sum_range_succ']
      have hS : (∑ j ∈ Finset.range rest.length,
            lamProd lcs (k + (j + 1)) * rk ((sh :: rest).getD (j + 1) d)) =
          ∑ j ∈ Finset.range rest.length, lamProd lcs (k + 1 + j) * rk (rest.getD j d) :=
        Finset.sum_congr rfl (fun j _ => by
          rw [List.getD_cons_succ]
          have hidx : k + (j + 1) = k + 1 + j := by omega
          rw [hidx])
      have hf0 : lamProd lcs (k + 0) * rk ((sh :: rest).getD 0 d) =
          lamProd lcs k * rk sh := by simp
      rw [hS, hf0, add_comm]
    rw [hsum, add_smul, add_smul, mul_smul, mul_smul, add_assoc, add_assoc]

/-- Every honestly re-encrypted CFrag passes `CapsuleFrag::verify` against the
keys it was generated for, given the ECDSA correctness contract. -/
theorem genKFrag_cfrag_verify_true (C : Ctx q G Sg) (caps : Capsule q G)
    (sk_alice sk_signer x_a trand : ZMod q) (pk_bob : G) (coeffs : List (ZMod q))
    (id : ZMod q) (meta : Option Bytes)
    (hsig : ∀ sk m, C.verifySig (sk • C.g) m (C.signMsg sk m) = true) :
    CapsuleFrag.verify C
        (CapsuleFrag.from_kfrag C caps
          (genKFrag C sk_alice pk_bob sk_signer x_a coeffs id) meta trand)
        caps (sk_alice • C.g) pk_bob (sk_signer • C.g) = true := by
  rw [CapsuleFrag.verify]
  simp only [Bool.and_eq_true]
  refine ⟨⟨⟨?_, ?_⟩, ?_⟩, ?_⟩
  · exact hsig sk_signer _
  · rw [decide_eq_true_eq]
    show (trand + _ * _) • caps.point_e = trand • caps.point_e + _
    rw [add_smul, mul_smul, smul_swap]
    rfl
  · rw [decide_eq_true_eq]
    show (trand + _ * _) • caps.point_v = trand • caps.point_v + _
    rw [add_smul, mul_smul, smul_swap]
    rfl
  · rw [decide_eq_true_eq]
    show (trand + _ * _) • C.u = trand • C.u + _
    rw [add_smul, mul_smul, smul_swap]
    rfl

/-- Bind on a successful panic-free value reduces. -/
theorem PanicOr.bind_ok {α β : Type} (a : α) (f : α → PanicOr β) :
    (PanicOr.ok a).bind f = f a := rfl

/-- Unwrap of a present option reduces. -/
theorem optPanic_some {α β : Type} (a : α) (f : α → PanicOr β) :
    optPanic (some a) f = f a := rfl

/-- Honest threshold decapsulation: opening a freshly encapsulated capsule
through at least `t` honestly re-encrypted CFrags (distinct share indices,
nonzero `d`) recovers the encapsulation seed `bytes((r + u)·pk_alice)`. -/
theorem open_reencrypted_honest [Fact (Nat.Prime q)] (C : Ctx q G Sg)
    (sk_alice sk_bob sk_signer x_a priv_r priv_u : ZMod q)
    (tail : List (ZMod q)) (shares : List (ZMod q × ZMod q × Option Bytes))
    (hd : dFactor C (x_a • C.g) (sk_bob • C.g) (x_a • (sk_bob • C.g)) ≠ 0)
    (hdist : (shares.map (fun sh =>
      shareIndexOf C (x_a • C.g) (sk_bob • C.g) (x_a • (sk_bob • C.g)) sh.1)).Pairwise
        (· ≠ ·))
    (hlen : tail.length + 1 ≤ shares.length) :
    Capsule.open_reencrypted C
        ⟨priv_r • C.g, priv_u • C.g,
          priv_u + priv_r *
            C.H (chainPoints ScalarDigest.new [priv_r • C.g, priv_u • C.g])⟩
        sk_bob (sk_alice • C.g)
        (shares.map (fun sh =>
          CapsuleFrag.from_kfrag C
            ⟨priv_r • C.g, priv_u • C.g,
              priv_u + priv_r *
                C.H (chainPoints ScalarDigest.new [priv_r • C.g, priv_u • C.g])⟩
            (genKFrag C sk_alice (sk_bob • C.g) sk_signer x_a
              (kfragCoeffs C sk_alice (sk_bob • C.g) x_a tail) sh.1)
            sh.2.2 sh.2.1)) =
      PanicOr.ok (C.pointBytes ((priv_r + priv_u) • (sk_alice • C.g))) := by
  rcases shares with _ | ⟨s0, shares'⟩
  · exfalso
    simp at hlen
  rw [List.map_cons]
  simp only [Capsule.open_reencrypted]
  have hdh : sk_bob • x_a • C.g = x_a • sk_bob • C.g := smul_swap sk_bob x_a C.g
  rw [show (CapsuleFrag.from_kfrag C
      ⟨priv_r • C.g, priv_u • C.g,
        priv_u + priv_r * C.H (chainPoints ScalarDigest.new [priv_r • C.g, priv_u • C.g])⟩
      (genKFrag C sk_alice (sk_bob • C.g) sk_signer x_a
        (kfragCoeffs C sk_alice (sk_bob • C.g) x_a tail) s0.1)
      s0.2.2 s0.2.1).precursor = x_a • C.g from rfl]
  rw [hdh]
  have hLCS : (List.map
      (fun cf => shareIndexOf C (x_a • C.g) (sk_bob • C.g) (x_a • sk_bob • C.g) cf.kfrag_id)
      (CapsuleFrag.from_kfrag C
          ⟨priv_r • C.g, priv_u • C.g,
            priv_u + priv_r * C.H (chainPoints ScalarDigest.new [priv_r • C.g, priv_u • C.g])⟩
          (genKFrag C sk_alice (sk_bob • C.g) sk_signer x_a
            (kfragCoeffs C sk_alice (sk_bob • C.g) x_a tail) s0.1)
          s0.2.2 s0.2.1 ::
        List.map
          (fun sh =>
            CapsuleFrag.from_kfrag C
              ⟨priv_r • C.g, priv_u • C.g,
                priv_u + priv_r *
                  C.H (chainPoints ScalarDigest.new [priv_r • C.g, priv_u • C.g])⟩
              (genKFrag C sk_alice (sk_bob • C.g) sk_signer x_a
                (kfragCoeffs C sk_alice (sk_bob • C.g) x_a tail) sh.1)
              sh.2.2 sh.2.1)
          shares')) =
      List.map (fun sh => shareIndexOf C (x_a • C.g) (sk_bob • C.g) (x_a • sk_bob • C.g) sh.1)
        (s0 :: shares') := by
    rw [show (CapsuleFrag.from_kfrag C
        ⟨priv_r • C.g, priv_u • C.g,
          priv_u + priv_r * C.H (chainPoints ScalarDigest.new [priv_r • C.g, priv_u • C.g])⟩
        (genKFrag C sk_alice (sk_bob • C.g) sk_signer x_a
          (kfragCoeffs C sk_alice (sk_bob • C.g) x_a tail) s0.1)
        s0.2.2 s0.2.1 ::
      List.map
        (fun sh =>
          CapsuleFrag.from_kfrag C
            ⟨priv_r • C.g, priv_u • C.g,
              priv_u + priv_r *
                C.H (chainPoints ScalarDigest.new [priv_r • C.g, priv_u • C.g])⟩
            (genKFrag C sk_alice (sk_bob • C.g) sk_signer x_a
              (kfragCoeffs C sk_alice (sk_bob • C.g) x_a tail) sh.1)
            sh.2.2 sh.2.1)
        shares') =
      List.map
        (fun sh =>
          CapsuleFrag.from_kfrag C
            ⟨priv_r • C.g, priv_u • C.g,
              priv_u + priv_r *
                C.H (chainPoints ScalarDigest.new [priv_r • C.g, priv_u • C.g])⟩
            (genKFrag C sk_alice (sk_bob • C.g) sk_signer x_a
              (kfragCoeffs C sk_alice (sk_bob • C.g) x_a tail) sh.1)
            sh.2.2 sh.2.1)
        (s0 :: shares') from rfl]
    rw [List.map_map]
    rfl
  rw [hLCS]
  have hlam : ∀ j, j < 0 + (s0 :: shares').length →
      lambda_coeff
          (List.map
            (fun sh => shareIndexOf C (x_a • C.g) (sk_bob • C.g) (x_a • sk_bob • C.g) sh.1)
            (s0 :: shares')) j =
        some (lamProd
          (List.map
            (fun sh => shareIndexOf C (x_a • C.g) (sk_bob • C.g) (x_a • sk_bob • C.g) sh.1)
            (s0 :: shares')) j) := by
    intro j hj
    refine lambda_coeff_closed _ j hdist ?_
    rw [List.length_map]
    simpa using hj
  have haccum := accumPrime_spec s0
    (fun sh =>
      CapsuleFrag.from_kfrag C
        ⟨priv_r • C.g, priv_u • C.g,
          priv_u + priv_r * C.H (chainPoints ScalarDigest.new [priv_r • C.g, priv_u • C.g])⟩
        (genKFrag C sk_alice (sk_bob • C.g) sk_signer x_a
          (kfragCoeffs C sk_alice (sk_bob • C.g) x_a tail) sh.1)
        sh.2.2 sh.2.1)
    (fun sh =>
      polyEval (kfragCoeffs C sk_alice (sk_bob • C.g) x_a tail)
        (shareIndexOf C (x_a • C.g) (sk_bob • C.g) (x_a • sk_bob • C.g) sh.1))
    (priv_r • C.g) (priv_u • C.g) (x_a • C.g)
    (List.map
      (fun sh => shareIndexOf C (x_a • C.g) (sk_bob • C.g) (x_a • sk_bob • C.g) sh.1)
      (s0 :: shares'))
    (s0 :: shares') 0 0 0
    (fun _ _ => rfl) (fun _ _ => rfl) (fun _ _ => rfl) hlam
  simp only [List.map_cons] at haccum
  simp only [List.map_cons]
  rw [haccum]
  simp only [PanicOr.bind_ok]
  rw [scalarInvert_of_ne_zero hd]
  simp only [optPanic_some]
  simp only [Nat.zero_add, zero_add]
  rw [show (shareIndexOf C (x_a • C.g) (sk_bob • C.g) (x_a • sk_bob • C.g) s0.1 ::
      List.map (fun sh => shareIndexOf C (x_a • C.g) (sk_bob • C.g) (x_a • sk_bob • C.g) sh.1)
        shares') =
    List.map (fun sh => shareIndexOf C (x_a • C.g) (sk_bob • C.g) (x_a • sk_bob • C.g) sh.1)
      (s0 :: shares') from rfl]
  have hlenc : (kfragCoeffs C sk_alice (sk_bob • C.g) x_a tail).length ≤
      (List.map
        (fun sh => shareIndexOf C (x_a • C.g) (sk_bob • C.g) (x_a • sk_bob • C.g) sh.1)
        (s0 :: shares')).length := by
    rw [List.length_map]
    simpa [kfragCoeffs] using hlen
  have hS : (∑ x ∈ Finset.range (s0 :: shares').length,
        lamProd
            (List.map
              (fun sh => shareIndexOf C (x_a • C.g) (sk_bob • C.g) (x_a • sk_bob • C.g) sh.1)
              (s0 :: shares')) x *
          polyEval (kfragCoeffs C sk_alice (sk_bob • C.g) x_a tail)
            (shareIndexOf C (x_a • C.g) (sk_bob • C.g) (x_a • sk_bob • C.g)
              ((s0 :: shares').getD x s0).1)) =
      sk_alice * (dFactor C (x_a • C.g) (sk_bob • C.g) (x_a • sk_bob • C.g))⁻¹ := by
    have hstep : ∀ j ∈ Finset.range (s0 :: shares').length,
        lamProd
            (List.map
              (fun sh => shareIndexOf C (x_a • C.g) (sk_bob • C.g) (x_a • sk_bob • C.g) sh.1)
              (s0 :: shares')) j *
          polyEval (kfragCoeffs C sk_alice (sk_bob • C.g) x_a tail)
            (shareIndexOf C (x_a • C.g) (sk_bob • C.g) (x_a • sk_bob • C.g)
              ((s0 :: shares').getD j s0).1) =
        lamProd
            (List.map
              (fun sh => shareIndexOf C (x_a • C.g) (sk_bob • C.g) (x_a • sk_bob • C.g) sh.1)
              (s0 :: shares')) j *
          polyEval (kfragCoeffs C sk_alice (sk_bob • C.g) x_a tail)
            ((List.map
              (fun sh => shareIndexOf C (x_a • C.g) (sk_bob • C.g) (x_a • sk_bob • C.g) sh.1)
              (s0 :: shares')).getD j 0) := by
      intro j hj
      have hj' : j < (s0 :: shares').length := Finset.mem_range.mp hj
      have hjm : j < (List.map
          (fun sh => shareIndexOf C (x_a • C.g) (sk_bob • C.g) (x_a • sk_bob • C.g) sh.1)
          (s0 :: shares')).length := by
        rw [List.length_map]
        exact hj'
      congr 1
      rw [List.getD_eq_getElem?_getD, List.getElem?_eq_getElem hj', Option.getD_some]
      rw [List.getD_eq_getElem?_getD, List.getElem?_eq_getElem hjm, Option.getD_some,
        List.getElem_map]
    rw [Finset.sum_congr rfl hstep]
    rw [show (s0 :: shares').length =
        (List.map
          (fun sh => shareIndexOf C (x_a • C.g) (sk_bob • C.g) (x_a • sk_bob • C.g) sh.1)
          (s0 :: shares')).length from (List.length_map _ _).symm]
    rw [lagrangeSumAtZero _ _ hdist hlenc]
    simp [polyEval, kfragCoeffs]
  rw [hS]
  have hcond : ((priv_u + priv_r *
        C.H (chainPoints ScalarDigest.new [priv_r • C.g, priv_u • C.g])) *
        (dFactor C (x_a • C.g) (sk_bob • C.g) (x_a • sk_bob • C.g))⁻¹) •
        sk_alice • C.g =
      C.H (chainPoints ScalarDigest.new [priv_r • C.g, priv_u • C.g]) •
          (sk_alice * (dFactor C (x_a • C.g) (sk_bob • C.g) (x_a • sk_bob • C.g))⁻¹) •
          priv_r • C.g +
        (sk_alice * (dFactor C (x_a • C.g) (sk_bob • C.g) (x_a • sk_bob • C.g))⁻¹) •
          priv_u • C.g := by
    module
  rw [if_pos hcond]
  have hfin : dFactor C (x_a • C.g) (sk_bob • C.g) (x_a • sk_bob • C.g) •
        ((sk_alice * (dFactor C (x_a • C.g) (sk_bob • C.g) (x_a • sk_bob • C.g))⁻¹) •
            priv_r • C.g +
          (sk_alice * (dFactor C (x_a • C.g) (sk_bob • C.g) (x_a • sk_bob • C.g))⁻¹) •
            priv_u • C.g) =
      (priv_r + priv_u) • sk_alice • C.g := by
    have hDA : dFactor C (x_a • C.g) (sk_bob • C.g) (x_a • sk_bob • C.g) *
        (sk_alice * (dFactor C (x_a • C.g) (sk_bob • C.g) (x_a • sk_bob • C.g))⁻¹) =
        sk_alice := by
      rw [mul_comm sk_alice, ← mul_assoc, mul_inv_cancel₀ hd, one_mul]
    have h1 : dFactor C (x_a • C.g) (sk_bob • C.g) (x_a • sk_bob • C.g) •
        ((sk_alice * (dFactor C (x_a • C.g) (sk_bob • C.g) (x_a • sk_bob • C.g))⁻¹) •
            priv_r • C.g +
          (sk_alice * (dFactor C (x_a • C.g) (sk_bob • C.g) (x_a • sk_bob • C.g))⁻¹) •
            priv_u • C.g) =
        (dFactor C (x_a • C.g) (sk_bob • C.g) (x_a • sk_bob • C.g) *
            (sk_alice * (dFactor C (x_a • C.g) (sk_bob • C.g) (x_a • sk_bob • C.g))⁻¹)) •
          (priv_r • C.g + priv_u • C.g) := by
      module
    rw [h1, hDA]
    module
  rw [hfin]

/-- C1: threshold re-encryption roundtrip.  For a message encrypted to Alice,
KFrags generated for (Alice → Bob) along a degree-`t−1` polynomial, and CFrags
obtained by honestly re-encrypting the capsule with any `k ≥ t` of those
KFrags (arbitrary per-proxy metadata and proof randomness, pairwise-distinct
share indices, nonzero `d`), `decrypt_reencrypted` returns the plaintext, for
either value of `check_proof`, given the external AEAD and ECDSA contracts. -/
theorem threshold_decrypt_reencrypted [Fact (Nat.Prime q)] (C : Ctx q G Sg)
    (sk_alice sk_bob sk_signer x_a priv_r priv_u : ZMod q)
    (tail : List (ZMod q)) (shares : List (ZMod q × ZMod q × Option Bytes))
    (plaintext nonce : Bytes) (check_proof : Bool)
    (hd : dFactor C (x_a • C.g) (sk_bob • C.g) (x_a • (sk_bob • C.g)) ≠ 0)
    (hdist : (shares.map (fun sh =>
      shareIndexOf C (x_a • C.g) (sk_bob • C.g) (x_a • (sk_bob • C.g)) sh.1)).Pairwise
        (· ≠ ·))
    (hlen : tail.length + 1 ≤ shares.length)
    (haead : ∀ k n a m, C.aeadDec k n a (C.aeadEnc k n a m) = some m)
    (hsig : ∀ sk m, C.verifySig (sk • C.g) m (C.signMsg sk m) = true) :
    decrypt_reencrypted C
        (encrypt C (sk_alice • C.g) plaintext priv_r priv_u nonce).1
        (Capsule.with_correctness_keys
          (encrypt C (sk_alice • C.g) plaintext priv_r priv_u nonce).2
          (sk_alice • C.g) (sk_bob • C.g) (sk_signer • C.g))
        (shares.map (fun sh =>
          CapsuleFrag.from_kfrag C
            (encrypt C (sk_alice • C.g) plaintext priv_r priv_u nonce).2
            (genKFrag C sk_alice (sk_bob • C.g) sk_signer x_a
              (kfragCoeffs C sk_alice (sk_bob • C.g) x_a tail) sh.1)
            sh.2.2 sh.2.1))
        sk_bob check_proof =
      PanicOr.ok (some plaintext) := by
  have hcaps : (encrypt C (sk_alice • C.g) plaintext priv_r priv_u nonce).2 =
      (⟨priv_r • C.g, priv_u • C.g,
        priv_u + priv_r *
          C.H (chainPoints ScalarDigest.new [priv_r • C.g, priv_u • C.g])⟩ :
        Capsule q G) := rfl
  rw [hcaps]
  have hall : (shares.map (fun sh =>
      CapsuleFrag.from_kfrag C
        ⟨priv_r • C.g, priv_u • C.g,
          priv_u + priv_r *
            C.H (chainPoints ScalarDigest.new [priv_r • C.g, priv_u • C.g])⟩
        (genKFrag C sk_alice (sk_bob • C.g) sk_signer x_a
          (kfragCoeffs C sk_alice (sk_bob • C.g) x_a tail) sh.1)
        sh.2.2 sh.2.1)).all
      (fun cf =>
        CapsuleFrag.verify C cf
          ⟨priv_r • C.g, priv_u • C.g,
            priv_u + priv_r *
              C.H (chainPoints ScalarDigest.new [priv_r • C.g, priv_u • C.g])⟩
          (sk_alice • C.g) (sk_bob • C.g) (sk_signer • C.g)) = true := by
    rw [List.all_eq_true]
    intro cf hcf
    rw [List.mem_map] at hcf
    obtain ⟨sh, hsh, rfl⟩ := hcf
    exact genKFrag_cfrag_verify_true C _ sk_alice sk_signer x_a sh.2.1 (sk_bob • C.g)
      (kfragCoeffs C sk_alice (sk_bob • C.g) x_a tail) sh.1 sh.2.2 hsig
  simp only [decrypt_reencrypted, PreparedCapsule.open_reencrypted,
    Capsule.with_correctness_keys]
  rw [hall]
  simp only [Bool.not_true, Bool.and_false, Bool.false_eq_true, if_false]
  rw [open_reencrypted_honest C sk_alice sk_bob sk_signer x_a priv_r priv_u tail shares
    hd hdist hlen]
  simp only [PanicOr.bind_ok]
  simp only [encrypt, demEncrypt, demDecrypt, UmbralDEM.new, Capsule.from_pubkey]
  rw [haead]

/-- C1 witness at a concrete input: one share suffices for threshold 1. -/
theorem threshold_decrypt_reencrypted_witness :
    decrypt_reencrypted demoCtx
        (encrypt demoCtx ((1 : ZMod 5) • demoCtx.g) [7] 1 1 (List.replicate 12 0)).1
        (Capsule.with_correctness_keys
          (encrypt demoCtx ((1 : ZMod 5) • demoCtx.g) [7] 1 1 (List.replicate 12 0)).2
          ((1 : ZMod 5) • demoCtx.g) ((1 : ZMod 5) • demoCtx.g) ((1 : ZMod 5) • demoCtx.g))
        ([((1 : ZMod 5), (1 : ZMod 5), (none : Option Bytes))].map (fun sh =>
          CapsuleFrag.from_kfrag demoCtx
            (encrypt demoCtx ((1 : ZMod 5) • demoCtx.g) [7] 1 1 (List.replicate 12 0)).2
            (genKFrag demoCtx 1 ((1 : ZMod 5) • demoCtx.g) 1 1
              (kfragCoeffs demoCtx 1 ((1 : ZMod 5) • demoCtx.g) 1 []) sh.1)
            sh.2.2 sh.2.1))
        1 true =
      PanicOr.ok (some [7]) :=
  threshold_decrypt_reencrypted demoCtx 1 1 1 1 1 1 [] [(1, 1, none)] [7]
    (List.replicate 12 0) true (by decide) (by decide) (by decide)
    (fun _ _ _ _ => rfl) (fun sk m => by simp [demoCtx])

end Theorems

end Umbral
